import Mathlib

/-!
Shallow embedding of the core of `src/main.rs` (gem-daily-downloads):
the gap-filling interpolation `better_gems_to_downloads`, the by-date
aggregation `group_downloads`, and the top-N ranking `top`.

Modelling conventions:
* chrono `NaiveDate` values are modelled as `Int` (days since an arbitrary
  epoch): `pred_opt().unwrap()` is `- 1`, `succ_opt().unwrap()` is `+ 1`,
  and `(a - b).num_days()` is `a - b`.
* `i64` values are modelled as `Int`.  Rust's `/` on `i64` truncates toward
  zero, which is `Int.tdiv`.
* Rust's `for i in 1..=n` loop is modelled by structural recursion on the
  iteration count `n.toNat` (zero iterations when `n <= 0`), with the loop
  variable `i` carried as an `Int`.
* `HashMap<K, V>` iteration has no specified order; maps are modelled as
  association lists (`List (K × V)`) and `HashMap::get` as `List.lookup`.
-/

namespace Gems

/-- One raw sample from bestgems.org: struct `BetterGem` in the source. -/
structure BetterGem where
  date : Int
  total_downloads : Int
deriving DecidableEq, Repr

/-- One dense daily record: struct `Download` in the source. -/
structure Download where
  date : Int
  total_downloads : Int
  daily_downloads : Option Int
deriving DecidableEq, Repr

/-- A gem's dense series: struct `Downloads` in the source. -/
structure Downloads where
  name : String
  downloads : List Download
deriving DecidableEq, Repr

/-- The body of the interpolation loop `for i in 1..=days_between` in
`better_gems_to_downloads` (the `else` branch), iterated `fuel` times
starting from loop variable `i`.  Returns the pushed records and the
final `last_download` state. -/
def interpFrom (gemTotal daysBetween : Int) : Int → Nat → Download → List Download × Download
  | _, 0, last => ([], last)
  | i, fuel+1, last =>
    let interpolated_date := last.date + 1
    let total_diff := gemTotal - last.total_downloads
    let total_downloads := last.total_downloads + (total_diff * i).tdiv daysBetween
    let pushed : Download :=
      { date := last.date, total_downloads := last.total_downloads,
        daily_downloads := some (total_downloads - last.total_downloads) }
    let interpolated : Download :=
      { date := interpolated_date, total_downloads := total_downloads,
        daily_downloads := none }
    let r := interpFrom gemTotal daysBetween (i+1) fuel interpolated
    (pushed :: r.1, r.2)

/-- One iteration of the outer `for better_gem in better_gems` loop of
`better_gems_to_downloads`: processes one raw sample against the current
`last_download`, returning the pushed records and the new `last_download`. -/
def gemStep (g : BetterGem) (last : Download) : List Download × Download :=
  let days_between := g.date - last.date
  if days_between = 1 then
    ([{ date := last.date, total_downloads := last.total_downloads,
        daily_downloads := some (g.total_downloads - last.total_downloads) }],
     { date := g.date, total_downloads := g.total_downloads, daily_downloads := none })
  else
    interpFrom g.total_downloads days_between 1 days_between.toNat last

/-- The outer loop of `better_gems_to_downloads` over all raw samples. -/
def fillLoop : List BetterGem → Download → List Download × Download
  | [], last => ([], last)
  | g :: gs, last =>
    let r := gemStep g last
    let r' := fillLoop gs r.2
    (r.1 ++ r'.1, r'.2)

/-- `better_gems_to_downloads` from the source: expands sparse cumulative
samples into a dense daily series.  The final `last_download` is pushed
after the loop (line `dl.downloads.push(last_download)`). -/
def better_gems_to_downloads (name : String) (better_gems : List BetterGem) : Downloads :=
  match better_gems with
  | [] => { name := name, downloads := [] }
  | g0 :: _ =>
    let start_date := g0.date - 1
    let r := fillLoop better_gems
      { date := start_date, total_downloads := 0, daily_downloads := none }
    { name := name, downloads := r.1 ++ [r.2] }

/-- One per-gem entry of a date group: struct `GemDownload` in the source. -/
structure GemDownload where
  name : String
  total_downloads : Int
  daily_downloads : Option Int
deriving DecidableEq, Repr

/-- Stable insertion into a list sorted ascending by `key`:
the new element goes before the first element whose key is `≥` its own. -/
def insertOn {α : Type} (key : α → Int) (x : α) : List α → List α
  | [] => [x]
  | y :: ys => if key x ≤ key y then x :: y :: ys else y :: insertOn key x ys

/-- Stable ascending sort by an `Int` key; models `itertools::sorted_by_key`
(and `Vec::sort_by_key`, both stable). -/
def sortOn {α : Type} (key : α → Int) : List α → List α
  | [] => []
  | x :: xs => insertOn key x (sortOn key xs)

/-- All records of all series, tagged with their gem name, in visit order
(the order `group_downloads` pushes them into the hash map's vectors). -/
def allRecords (dls : List Downloads) : List (String × Download) :=
  dls.flatMap (fun dl => dl.downloads.map (fun r => (dl.name, r)))

/-- `group_downloads` from the source: groups every record of every series
by date into a `HashMap`, then collects and sorts the groups by date.
The hash map is modelled extensionally: its key set is the set of distinct
record dates, and the vector for date `d` holds exactly the records whose
date is `d`, in visit order. -/
def group_downloads (dls : List Downloads) : List (Int × List GemDownload) :=
  let recs := allRecords dls
  let dates := (recs.map (fun r => r.2.date)).dedup
  (sortOn (fun d => d) dates).map (fun d =>
    (d, (recs.filter (fun r => r.2.date == d)).map
      (fun r => { name := r.1, total_downloads := r.2.total_downloads,
                  daily_downloads := r.2.daily_downloads })))

/-- The per-gem growth record: local struct `Diff` in the source's `top`
(field `end` is renamed `end_`, `end` being a Lean keyword). -/
structure Diff where
  name : String
  diff : Int
  start : Int
  end_ : Int
deriving DecidableEq, Repr

/-- The candidate list built by `top` from the two snapshots: one `Diff`
per entry of the end snapshot, with the start total defaulting to 0. -/
def mkDiffs (start_downloads end_downloads : List (String × Int)) : List Diff :=
  end_downloads.map (fun e =>
    let s := (start_downloads.lookup e.1).getD 0
    { name := e.1, start := s, end_ := e.2, diff := e.2 - s })

/-- The pure core of `top` from the source: build candidates from the end
snapshot, sort ascending by `-diff` (stable), filter by `only_new`,
truncate to `count`. -/
def top (count : Nat) (only_new : Bool)
    (start_downloads end_downloads : List (String × Int)) : List Diff :=
  ((sortOn (fun gd => -gd.diff) (mkDiffs start_downloads end_downloads)).filter
      (fun gd => !only_new || gd.start == 0)).take count

/-- The consecutive list `[d, d+1, ..., d+n-1]` of `n` calendar days. -/
def dateRange (d : Int) : Nat → List Int
  | 0 => []
  | n+1 => d :: dateRange (d+1) n

/-- The interpolated cumulative totals as the source actually computes them:
`interpTotal v0 v1 gap i` is the cumulative value emitted for interpolated
day index `i`, defined by the recurrence
`t 0 = v0`, `t (i+1) = t i + ((v1 - t i) * (i+1)) tdiv gap`
(each step interpolates from the *previous emitted* value, not from `v0`). -/
def interpTotal (v0 v1 gap : Int) : Nat → Int
  | 0 => v0
  | i+1 =>
    let t := interpTotal v0 v1 gap i
    t + ((v1 - t) * ((i : Int) + 1)).tdiv gap

/-- The forward-delta relation between consecutive daily records: the
earlier record's `daily_downloads` is the following record's total minus
its own. -/
def deltaR (a b : Download) : Prop :=
  a.daily_downloads = some (b.total_downloads - a.total_downloads)

/-! ### Basic lemmas about `interpFrom` -/

lemma interpFrom_zero (g db i : Int) (last : Download) :
    interpFrom g db i 0 last = ([], last) := rfl

lemma interpFrom_succ (g db i : Int) (n : Nat) (last : Download) :
    interpFrom g db i (n+1) last =
      ((⟨last.date, last.total_downloads,
          some ((last.total_downloads + ((g - last.total_downloads) * i).tdiv db)
            - last.total_downloads)⟩ : Download)
        :: (interpFrom g db (i+1) n
              ⟨last.date + 1,
               last.total_downloads + ((g - last.total_downloads) * i).tdiv db,
               none⟩).1,
       (interpFrom g db (i+1) n
          ⟨last.date + 1,
           last.total_downloads + ((g - last.total_downloads) * i).tdiv db,
           none⟩).2) := rfl

lemma interpFrom_out_some (g db : Int) :
    ∀ (fuel : Nat) (i : Int) (last : Download),
      ∀ d ∈ (interpFrom g db i fuel last).1, d.daily_downloads ≠ none := by
  intro fuel
  induction fuel with
  | zero => intro i last d hd; simp [interpFrom_zero] at hd
  | succ n ih =>
    intro i last d hd
    rw [interpFrom_succ] at hd
    rcases List.mem_cons.mp hd with hd | hd
    · subst hd; simp
    · exact ih (i+1) _ d hd

lemma interpFrom_head (g db : Int) (fuel : Nat) (i : Int) (last : Download) :
    ∃ h t, (interpFrom g db i fuel last).1 ++ [(interpFrom g db i fuel last).2] = h :: t
      ∧ h.total_downloads = last.total_downloads ∧ h.date = last.date := by
  cases fuel with
  | zero => exact ⟨last, [], by simp [interpFrom_zero], rfl, rfl⟩
  | succ n =>
    rw [interpFrom_succ]
    simp only [List.cons_append]
    exact ⟨_, _, rfl, rfl, rfl⟩

lemma interpFrom_map_date (g db : Int) :
    ∀ (fuel : Nat) (i : Int) (last : Download),
      (interpFrom g db i fuel last).1.map (fun d => d.date) = dateRange last.date fuel
      ∧ (interpFrom g db i fuel last).2.date = last.date + fuel := by
  intro fuel
  induction fuel with
  | zero => intro i last; simp [interpFrom_zero, dateRange]
  | succ n ih =>
    intro i last
    rw [interpFrom_succ]
    obtain ⟨h1, h2⟩ := ih (i+1)
      ⟨last.date + 1,
       last.total_downloads + ((g - last.total_downloads) * i).tdiv db, none⟩
    refine ⟨?_, ?_⟩
    · simp only [List.map_cons, h1, dateRange]
    · simp only [h2]
      push_cast
      ring

lemma interpFrom_final_daily (g db : Int) :
    ∀ (fuel : Nat) (i : Int) (last : Download), fuel ≠ 0 →
      (interpFrom g db i fuel last).2.daily_downloads = none := by
  intro fuel
  induction fuel with
  | zero => intro i last h; exact absurd rfl h
  | succ n ih =>
    intro i last _
    rw [interpFrom_succ]
    cases n with
    | zero => simp [interpFrom_zero]
    | succ m => exact ih (i+1) _ (Nat.succ_ne_zero m)

lemma interpFrom_final_total (g db : Int) :
    ∀ (fuel : Nat) (i : Int) (last : Download), fuel ≠ 0 → db ≠ 0 →
      i + fuel = db + 1 →
      (interpFrom g db i fuel last).2.total_downloads = g := by
  intro fuel
  induction fuel with
  | zero => intro i last h; exact absurd rfl h
  | succ n ih =>
    intro i last _ hdb hsum
    rw [interpFrom_succ]
    cases n with
    | zero =>
      have hi : i = db := by push_cast at hsum; omega
      subst hi
      simp [interpFrom_zero, Int.mul_tdiv_cancel _ hdb]
    | succ m =>
      refine ih (i+1) _ (Nat.succ_ne_zero m) hdb ?_
      push_cast at hsum ⊢
      omega

lemma interpFrom_sum (g db : Int) :
    ∀ (fuel : Nat) (i : Int) (last : Download),
      ((interpFrom g db i fuel last).1.filterMap (fun d => d.daily_downloads)).sum
        = (interpFrom g db i fuel last).2.total_downloads - last.total_downloads := by
  intro fuel
  induction fuel with
  | zero => intro i last; simp [interpFrom_zero]
  | succ n ih =>
    intro i last
    rw [interpFrom_succ]
    dsimp only
    simp only [List.filterMap_cons, List.sum_cons]
    rw [ih (i+1)]
    ring

lemma interpFrom_chain (g db : Int) :
    ∀ (fuel : Nat) (i : Int) (last : Download),
      List.Chain' deltaR
        ((interpFrom g db i fuel last).1 ++ [(interpFrom g db i fuel last).2]) := by
  intro fuel
  induction fuel with
  | zero => intro i last; simp [interpFrom_zero]
  | succ n ih =>
    intro i last
    rw [interpFrom_succ]
    simp only [List.cons_append]
    obtain ⟨h, t, heq, htot, _⟩ := interpFrom_head g db n (i+1)
      ⟨last.date + 1,
       last.total_downloads + ((g - last.total_downloads) * i).tdiv db, none⟩
    rw [heq]
    refine List.Chain'.cons ?_ (heq ▸ ih (i+1) _)
    show deltaR _ h
    unfold deltaR
    simp [htot]

lemma interpFrom_totals (v0 v1 db : Int) :
    ∀ (fuel k : Nat) (last : Download),
      last.total_downloads = interpTotal v0 v1 db k →
      ((interpFrom v1 db ((k : Int) + 1) fuel last).1
        ++ [(interpFrom v1 db ((k : Int) + 1) fuel last).2]).map
          (fun d => d.total_downloads)
      = (List.range (fuel+1)).map (fun j => interpTotal v0 v1 db (k + j)) := by
  intro fuel
  induction fuel with
  | zero =>
    intro k last hlast
    simp [interpFrom_zero, hlast, List.range_succ]
  | succ n ih =>
    intro k last hlast
    rw [interpFrom_succ]
    dsimp only
    simp only [List.cons_append, List.map_cons]
    have hcast : ((k : Int) + 1) + 1 = (((k+1 : Nat) : Int)) + 1 := by push_cast; ring
    rw [hcast]
    have hnew : (⟨last.date + 1,
        last.total_downloads + ((v1 - last.total_downloads) * ((k : Int) + 1)).tdiv db,
        none⟩ : Download).total_downloads = interpTotal v0 v1 db (k+1) := by
      show last.total_downloads + ((v1 - last.total_downloads) * ((k : Int) + 1)).tdiv db
        = interpTotal v0 v1 db (k+1)
      rw [hlast]; rfl
    rw [List.range_succ_eq_map, List.map_cons, List.map_map]
    rw [ih (k+1) _ hnew]
    simp only [hlast, Nat.add_zero]
    congr 1
    apply List.map_congr_left
    intro a _
    simp only [Function.comp_apply]
    congr 1
    omega

/-! ### Lemmas about `dateRange` -/

lemma dateRange_length : ∀ (n : Nat) (d : Int), (dateRange d n).length = n := by
  intro n
  induction n with
  | zero => intro d; rfl
  | succ m ih => intro d; simp [dateRange, ih]

lemma dateRange_append : ∀ (a b : Nat) (d : Int),
    dateRange d a ++ dateRange (d + a) b = dateRange d (a + b) := by
  intro a
  induction a with
  | zero => intro b d; simp [dateRange]
  | succ m ih =>
    intro b d
    have h1 : m + 1 + b = (m + b) + 1 := by omega
    rw [h1]
    simp only [dateRange, List.cons_append]
    congr 1
    have h2 : d + ((m+1 : Nat) : Int) = (d + 1) + (m : Int) := by push_cast; ring
    rw [h2]
    exact ih b (d+1)

/-! ### Lemmas about `gemStep` -/

lemma gemStep_eq_one (g : BetterGem) (last : Download) (h : g.date - last.date = 1) :
    gemStep g last =
      ([{ date := last.date, total_downloads := last.total_downloads,
          daily_downloads := some (g.total_downloads - last.total_downloads) }],
       { date := g.date, total_downloads := g.total_downloads, daily_downloads := none }) := by
  unfold gemStep
  rw [if_pos h]

lemma gemStep_eq_interp (g : BetterGem) (last : Download) (h : ¬ g.date - last.date = 1) :
    gemStep g last = interpFrom g.total_downloads (g.date - last.date)
      1 (g.date - last.date).toNat last := by
  unfold gemStep
  rw [if_neg h]

lemma gemStep_out_some (g : BetterGem) (last : Download) :
    ∀ d ∈ (gemStep g last).1, d.daily_downloads ≠ none := by
  intro d hd
  by_cases h : g.date - last.date = 1
  · rw [gemStep_eq_one g last h] at hd
    rcases List.mem_singleton.mp hd with rfl
    simp
  · rw [gemStep_eq_interp g last h] at hd
    exact interpFrom_out_some _ _ _ _ _ d hd

lemma gemStep_head (g : BetterGem) (last : Download) :
    ∃ h t, (gemStep g last).1 ++ [(gemStep g last).2] = h :: t
      ∧ h.total_downloads = last.total_downloads := by
  by_cases h : g.date - last.date = 1
  · rw [gemStep_eq_one g last h]
    exact ⟨_, _, rfl, rfl⟩
  · rw [gemStep_eq_interp g last h]
    obtain ⟨hh, t, heq, htot, _⟩ := interpFrom_head g.total_downloads
      (g.date - last.date) (g.date - last.date).toNat 1 last
    exact ⟨hh, t, heq, htot⟩

lemma gemStep_sum (g : BetterGem) (last : Download) :
    (((gemStep g last).1).filterMap (fun d => d.daily_downloads)).sum
      = (gemStep g last).2.total_downloads - last.total_downloads := by
  by_cases h : g.date - last.date = 1
  · rw [gemStep_eq_one g last h]
    simp
  · rw [gemStep_eq_interp g last h]
    exact interpFrom_sum _ _ _ _ _

lemma gemStep_chain (g : BetterGem) (last : Download) :
    List.Chain' deltaR ((gemStep g last).1 ++ [(gemStep g last).2]) := by
  by_cases h : g.date - last.date = 1
  · rw [gemStep_eq_one g last h]
    refine List.chain'_pair.mpr ?_
    unfold deltaR
    simp
  · rw [gemStep_eq_interp g last h]
    exact interpFrom_chain _ _ _ _ _

lemma gemStep_final (g : BetterGem) (last : Download) (hgap : 1 ≤ g.date - last.date) :
    (gemStep g last).2.date = g.date
    ∧ (gemStep g last).2.total_downloads = g.total_downloads
    ∧ (gemStep g last).2.daily_downloads = none := by
  by_cases h : g.date - last.date = 1
  · rw [gemStep_eq_one g last h]
    exact ⟨rfl, rfl, rfl⟩
  · rw [gemStep_eq_interp g last h]
    have hgap2 : 2 ≤ g.date - last.date := by omega
    have hfuel : (g.date - last.date).toNat ≠ 0 := by omega
    have hdb : g.date - last.date ≠ 0 := by omega
    have hsum : (1 : Int) + ((g.date - last.date).toNat : Int)
        = (g.date - last.date) + 1 := by omega
    refine ⟨?_, ?_, ?_⟩
    · have := (interpFrom_map_date g.total_downloads (g.date - last.date)
        (g.date - last.date).toNat 1 last).2
      rw [this]
      omega
    · exact interpFrom_final_total _ _ _ _ _ hfuel hdb hsum
    · exact interpFrom_final_daily _ _ _ _ _ hfuel

lemma gemStep_map_date (g : BetterGem) (last : Download) :
    (gemStep g last).1.map (fun d => d.date)
      = dateRange last.date (g.date - last.date).toNat := by
  by_cases h : g.date - last.date = 1
  · rw [gemStep_eq_one g last h, h]
    rfl
  · rw [gemStep_eq_interp g last h]
    exact (interpFrom_map_date _ _ _ _ _).1

/-! ### Lemmas about `fillLoop` -/

lemma fillLoop_nil (last : Download) : fillLoop [] last = ([], last) := rfl

lemma fillLoop_cons (g : BetterGem) (gs : List BetterGem) (last : Download) :
    fillLoop (g :: gs) last =
      ((gemStep g last).1 ++ (fillLoop gs (gemStep g last).2).1,
       (fillLoop gs (gemStep g last).2).2) := rfl

/-- `deltaR a b` only looks at `b` through its cumulative total. -/
lemma deltaR_congr {a b c : Download}
    (h : b.total_downloads = c.total_downloads) (hab : deltaR a b) : deltaR a c := by
  unfold deltaR at hab ⊢
  rw [hab, h]

lemma fillLoop_head : ∀ (gems : List BetterGem) (last : Download),
    ∃ h t, (fillLoop gems last).1 ++ [(fillLoop gems last).2] = h :: t
      ∧ h.total_downloads = last.total_downloads := by
  intro gems
  induction gems with
  | nil => intro last; exact ⟨last, [], rfl, rfl⟩
  | cons g gs ih =>
    intro last
    rw [fillLoop_cons]
    dsimp only
    obtain ⟨h, t, heq, htot⟩ := gemStep_head g last
    cases hout : (gemStep g last).1 with
    | nil =>
      obtain ⟨h', t', heq', htot'⟩ := ih (gemStep g last).2
      refine ⟨h', t', by simpa using heq', ?_⟩
      rw [hout] at heq
      simp only [List.nil_append, List.cons.injEq] at heq
      rw [htot', heq.1, htot]
    | cons x xs =>
      have hx : x = h := by
        rw [hout] at heq
        simp only [List.cons_append, List.cons.injEq] at heq
        exact heq.1
      refine ⟨x, xs ++ (fillLoop gs (gemStep g last).2).1
        ++ [(fillLoop gs (gemStep g last).2).2], by simp, ?_⟩
      rw [hx]
      exact htot

lemma fillLoop_out_some : ∀ (gems : List BetterGem) (last : Download),
    ∀ d ∈ (fillLoop gems last).1, d.daily_downloads ≠ none := by
  intro gems
  induction gems with
  | nil => intro last d hd; simp [fillLoop_nil] at hd
  | cons g gs ih =>
    intro last d hd
    rw [fillLoop_cons] at hd
    rcases List.mem_append.mp hd with hd | hd
    · exact gemStep_out_some g last d hd
    · exact ih _ d hd

lemma fillLoop_sum : ∀ (gems : List BetterGem) (last : Download),
    ((fillLoop gems last).1.filterMap (fun d => d.daily_downloads)).sum
      = (fillLoop gems last).2.total_downloads - last.total_downloads := by
  intro gems
  induction gems with
  | nil => intro last; simp [fillLoop_nil]
  | cons g gs ih =>
    intro last
    rw [fillLoop_cons]
    dsimp only
    rw [List.filterMap_append, List.sum_append, gemStep_sum, ih]
    ring

lemma fillLoop_final : ∀ (gems : List BetterGem) (last : Download) (h : gems ≠ []),
    List.Chain' (fun a b => a.date < b.date) gems →
    last.date < (gems.head h).date →
    (fillLoop gems last).2.date = (gems.getLast h).date
    ∧ (fillLoop gems last).2.total_downloads = (gems.getLast h).total_downloads
    ∧ (fillLoop gems last).2.daily_downloads = none := by
  intro gems
  induction gems with
  | nil => intro last h; exact absurd rfl h
  | cons g gs ih =>
    intro last _ hc hlt
    rw [fillLoop_cons]
    dsimp only
    have hgap : 1 ≤ g.date - last.date := by
      simp only [List.head_cons] at hlt; omega
    obtain ⟨hd, ht, hn⟩ := gemStep_final g last hgap
    cases gs with
    | nil =>
      simp only [fillLoop_nil]
      exact ⟨hd, ht, hn⟩
    | cons g' gs' =>
      have hc' : List.Chain' (fun a b => a.date < b.date) (g' :: gs') :=
        (List.chain'_cons'.mp hc).2
      have hlt' : (gemStep g last).2.date < ((g' :: gs').head (by simp)).date := by
        rw [hd]
        simp only [List.head_cons]
        exact (List.chain'_cons.mp hc).1
      have := ih (gemStep g last).2 (by simp) hc' hlt'
      simpa using this

lemma fillLoop_map_date : ∀ (gems : List BetterGem) (last : Download),
    List.Chain' (fun a b => a.date < b.date) gems →
    (∀ g0 ∈ gems.head?, last.date < g0.date) →
    (fillLoop gems last).1.map (fun d => d.date)
      = dateRange last.date ((fillLoop gems last).2.date - last.date).toNat
    ∧ last.date ≤ (fillLoop gems last).2.date := by
  intro gems
  induction gems with
  | nil =>
    intro last _ _
    simp [fillLoop_nil, dateRange]
  | cons g gs ih =>
    intro last hc hhead
    rw [fillLoop_cons]
    dsimp only
    have hlt : last.date < g.date := hhead g (by simp)
    have hgap : 1 ≤ g.date - last.date := by omega
    obtain ⟨hd, _, _⟩ := gemStep_final g last hgap
    have hc' : List.Chain' (fun a b => a.date < b.date) gs :=
      (List.chain'_cons'.mp hc).2
    have hhead' : ∀ g0 ∈ gs.head?, (gemStep g last).2.date < g0.date := by
      intro g0 hg0
      rw [hd]
      exact (List.chain'_cons'.mp hc).1 g0 hg0
    obtain ⟨ihmap, ihle⟩ := ih (gemStep g last).2 hc' hhead'
    rw [hd] at ihle
    constructor
    · rw [List.map_append, gemStep_map_date, ihmap, hd]
      rw [show dateRange g.date ((fillLoop gs (gemStep g last).2).2.date - g.date).toNat
            = dateRange (last.date + ((g.date - last.date).toNat : Int))
                ((fillLoop gs (gemStep g last).2).2.date - g.date).toNat by
            congr 1; omega]
      rw [dateRange_append]
      congr 1
      omega
    · omega

lemma fillLoop_chain : ∀ (gems : List BetterGem) (last : Download),
    List.Chain' (fun a b => a.date < b.date) gems →
    (∀ g0 ∈ gems.head?, last.date < g0.date) →
    List.Chain' deltaR ((fillLoop gems last).1 ++ [(fillLoop gems last).2]) := by
  intro gems
  induction gems with
  | nil => intro last _ _; simp [fillLoop_nil]
  | cons g gs ih =>
    intro last hc hhead
    rw [fillLoop_cons]
    dsimp only
    rw [List.append_assoc]
    have hgchain := gemStep_chain g last
    have hgdec := List.chain'_append.mp hgchain
    have hlt : last.date < g.date := hhead g (by simp)
    have hgap : 1 ≤ g.date - last.date := by omega
    obtain ⟨hd, _, _⟩ := gemStep_final g last hgap
    have hc' : List.Chain' (fun a b => a.date < b.date) gs :=
      (List.chain'_cons'.mp hc).2
    have hhead' : ∀ g0 ∈ gs.head?, (gemStep g last).2.date < g0.date := by
      intro g0 hg0
      rw [hd]
      exact (List.chain'_cons'.mp hc).1 g0 hg0
    refine List.chain'_append.mpr ⟨hgdec.1, ih (gemStep g last).2 hc' hhead', ?_⟩
    intro x hx y hy
    obtain ⟨h', t', heq', htot'⟩ := fillLoop_head gs (gemStep g last).2
    have hy' : h' = y := by
      rw [heq'] at hy
      simpa using hy
    rw [← hy']
    have hlink : deltaR x (gemStep g last).2 := by
      refine hgdec.2.2 x hx (gemStep g last).2 ?_
      simp
    exact deltaR_congr htot'.symm hlink

/-! ### Series-level helpers for `better_gems_to_downloads` -/

lemma better_gems_to_downloads_cons (name : String) (g0 : BetterGem)
    (rest : List BetterGem) :
    better_gems_to_downloads name (g0 :: rest) =
      { name := name,
        downloads := (fillLoop (g0 :: rest) ⟨g0.date - 1, 0, none⟩).1
          ++ [(fillLoop (g0 :: rest) ⟨g0.date - 1, 0, none⟩).2] } := rfl

lemma init_head_lt (g0 : BetterGem) (rest : List BetterGem) :
    ∀ gg ∈ (g0 :: rest).head?,
      (⟨g0.date - 1, 0, none⟩ : Download).date < gg.date := by
  intro gg hgg
  simp only [List.head?_cons, Option.mem_def, Option.some.injEq] at hgg
  subst hgg
  show g0.date - 1 < g0.date
  omega

lemma chain_head_le_getLast : ∀ (gems : List BetterGem) (h : gems ≠ []),
    List.Chain' (fun a b => a.date < b.date) gems →
    (gems.head h).date ≤ (gems.getLast h).date := by
  intro gems
  induction gems with
  | nil => intro h; exact absurd rfl h
  | cons g gs ih =>
    intro _ hc
    cases gs with
    | nil => simp
    | cons g' gs' =>
      have h1 : g.date < g'.date := (List.chain'_cons.mp hc).1
      have h2 := ih (by simp) (List.chain'_cons.mp hc).2
      simp only [List.head_cons] at h2 ⊢
      rw [List.getLast_cons (by simp)]
      omega

/-- The dense series' dates, in closed form: one date per calendar day from
the day before the first sample through the last sample's date. -/
lemma fill_map_date (name : String) (gems : List BetterGem) (hne : gems ≠ [])
    (hc : List.Chain' (fun a b => a.date < b.date) gems) :
    (better_gems_to_downloads name gems).downloads.map (fun d => d.date)
      = dateRange ((gems.head hne).date - 1)
          (((gems.getLast hne).date - (gems.head hne).date).toNat + 2) := by
  cases gems with
  | nil => exact absurd rfl hne
  | cons g0 rest =>
    obtain ⟨hmap, hle⟩ := fillLoop_map_date (g0 :: rest) ⟨g0.date - 1, 0, none⟩
      hc (init_head_lt g0 rest)
    have hlt0 : (⟨g0.date - 1, 0, none⟩ : Download).date
        < ((g0 :: rest).head hne).date := by
      simp only [List.head_cons]
      show g0.date - 1 < g0.date
      omega
    obtain ⟨hfd, _, _⟩ := fillLoop_final (g0 :: rest) ⟨g0.date - 1, 0, none⟩
      hne hc hlt0
    have hle' : g0.date - 1
        ≤ (fillLoop (g0 :: rest) ⟨g0.date - 1, 0, none⟩).2.date := hle
    rw [hfd] at hle'
    have hge : g0.date ≤ ((g0 :: rest).getLast hne).date := by
      have h := chain_head_le_getLast (g0 :: rest) hne hc
      simpa using h
    rw [better_gems_to_downloads_cons]
    dsimp only
    rw [List.map_append, hmap]
    simp only [List.map_cons, List.map_nil, List.head_cons]
    rw [hfd]
    rw [show ([((g0 :: rest).getLast hne).date] : List Int)
        = dateRange ((g0.date - 1)
            + ((((g0 :: rest).getLast hne).date - (g0.date - 1)).toNat : Int)) 1 by
      show [((g0 :: rest).getLast hne).date]
        = [(g0.date - 1)
            + ((((g0 :: rest).getLast hne).date - (g0.date - 1)).toNat : Int)]
      congr 1
      omega]
    rw [dateRange_append]
    congr 1
    omega

/-! ### Claim theorems: GapFiller -/

/-- C1: for a previous point at date d0 with value v0 and a next raw sample
(d1, v1) with gap = d1 - d0 ≥ 1, the record state the gap-filling step leaves
for date d1 carries exactly the sampled value v1, for all integer v0, v1. -/
theorem c1_gap_reconstruction (d0 v0 d1 v1 : Int) (δ : Option Int)
    (hgap : 1 ≤ d1 - d0) :
    (gemStep ⟨d1, v1⟩ ⟨d0, v0, δ⟩).2.total_downloads = v1
    ∧ (gemStep ⟨d1, v1⟩ ⟨d0, v0, δ⟩).2.date = d1 := by
  obtain ⟨hd, ht, _⟩ := gemStep_final ⟨d1, v1⟩ ⟨d0, v0, δ⟩ hgap
  exact ⟨ht, hd⟩

theorem c1_gap_reconstruction_witness :
    (1 : Int) ≤ 3 - 0
    ∧ ((gemStep ⟨3, 7⟩ ⟨0, 0, none⟩).2.total_downloads = 7
       ∧ (gemStep ⟨3, 7⟩ ⟨0, 0, none⟩).2.date = 3) :=
  ⟨by decide, c1_gap_reconstruction 0 0 3 7 none (by decide)⟩

/-- C2 counterexample: for consecutive samples (0,0) and (3,7) (gap 3), the
record emitted for interpolated day index i = 2 (date 2) carries cumulative
total 5, while the claimed formula v0 + floor((v1-v0)*i/gap) yields 4. -/
theorem c2_counterexample :
    ((better_gems_to_downloads "g" [⟨0, 0⟩, ⟨3, 7⟩]).downloads.map
      (fun d => (d.date, d.total_downloads))) = [(-1, 0), (0, 0), (1, 2), (2, 5), (3, 7)]
    ∧ (0 : Int) + Int.fdiv ((7 - 0) * 2) 3 = 4
    ∧ (5 : Int) ≠ 4 := by decide

/-- C2 amended: for gap > 1, the cumulative value emitted for interpolated day
index i (the record at date d0 + i) is `interpTotal v0 v1 gap i`, the
recurrence the source computes: t 0 = v0 and
t (i+1) = t i + ((v1 - t i) * (i+1)) tdiv gap, i.e. each step applies the
truncating division to the difference from the *previous emitted* value,
not the closed form v0 + floor((v1 - v0) * i / gap). -/
theorem c2_interpolation_values (d0 v0 v1 : Int) (δ : Option Int) (gap : Nat)
    (hgap : 2 ≤ gap) :
    (((gemStep ⟨d0 + gap, v1⟩ ⟨d0, v0, δ⟩).1
        ++ [(gemStep ⟨d0 + gap, v1⟩ ⟨d0, v0, δ⟩).2]).map (fun d => d.total_downloads))
      = (List.range (gap + 1)).map (fun i => interpTotal v0 v1 gap i)
    ∧ (((gemStep ⟨d0 + gap, v1⟩ ⟨d0, v0, δ⟩).1
        ++ [(gemStep ⟨d0 + gap, v1⟩ ⟨d0, v0, δ⟩).2]).map (fun d => d.date))
      = dateRange d0 (gap + 1) := by
  have hne1 : ¬ ((⟨d0 + gap, v1⟩ : BetterGem).date - (⟨d0, v0, δ⟩ : Download).date = 1) := by
    show ¬ (d0 + (gap : Int) - d0 = 1)
    omega
  rw [gemStep_eq_interp _ _ hne1]
  have harg : (⟨d0 + gap, v1⟩ : BetterGem).date - (⟨d0, v0, δ⟩ : Download).date
      = (gap : Int) := by
    show d0 + (gap : Int) - d0 = (gap : Int)
    ring
  rw [harg]
  have htn : ((gap : Int)).toNat = gap := Int.toNat_natCast gap
  rw [htn]
  constructor
  · have h0 : (1 : Int) = ((0 : Nat) : Int) + 1 := by norm_num
    rw [h0]
    rw [interpFrom_totals v0 v1 (gap : Int) gap 0 ⟨d0, v0, δ⟩ rfl]
    apply List.map_congr_left
    intro a _
    simp
  · obtain ⟨hmap, hdate⟩ := interpFrom_map_date v1 (gap : Int) gap 1 ⟨d0, v0, δ⟩
    rw [List.map_append, hmap, List.map_singleton, hdate]
    show dateRange d0 gap ++ [d0 + (gap : Int)] = dateRange d0 (gap + 1)
    rw [show ([d0 + (gap : Int)] : List Int) = dateRange (d0 + (gap : Int)) 1 from rfl]
    exact dateRange_append gap 1 d0

theorem c2_interpolation_values_witness :
    2 ≤ 3
    ∧ ((((gemStep ⟨0 + (3:Nat), 7⟩ ⟨0, 0, none⟩).1
        ++ [(gemStep ⟨0 + (3:Nat), 7⟩ ⟨0, 0, none⟩).2]).map (fun d => d.total_downloads))
      = (List.range (3 + 1)).map (fun i => interpTotal 0 7 3 i)
    ∧ (((gemStep ⟨0 + (3:Nat), 7⟩ ⟨0, 0, none⟩).1
        ++ [(gemStep ⟨0 + (3:Nat), 7⟩ ⟨0, 0, none⟩).2]).map (fun d => d.date))
      = dateRange 0 (3 + 1)) :=
  ⟨by decide, c2_interpolation_values 0 0 7 none 3 (by decide)⟩

/-- C3 counterexample: for the single sample (0, 5), the synthetic baseline
record (dated -1, one day before the first sample) carries
daily_downloads = some 5, not none — the claim that the baseline is the
record with the none delta is false. -/
theorem c3_counterexample :
    ¬ (∀ d ∈ (better_gems_to_downloads "g" [⟨0, 5⟩]).downloads,
        d.date = 0 - 1 → d.daily_downloads = none) := by decide

/-- C3 amended: in every series built from a non-empty strictly-increasing
sample list, daily_downloads is none for exactly one record — the *final*
record (at the last sample's date); every other record, including the
synthetic baseline, carries some delta. -/
theorem c3_none_only_final (name : String) (gems : List BetterGem)
    (hne : gems ≠ []) (hc : List.Chain' (fun a b => a.date < b.date) gems) :
    ∃ out last, (better_gems_to_downloads name gems).downloads = out ++ [last]
      ∧ (∀ d ∈ out, d.daily_downloads ≠ none)
      ∧ last.daily_downloads = none := by
  cases gems with
  | nil => exact absurd rfl hne
  | cons g0 rest =>
    rw [better_gems_to_downloads_cons]
    refine ⟨(fillLoop (g0 :: rest) ⟨g0.date - 1, 0, none⟩).1,
            (fillLoop (g0 :: rest) ⟨g0.date - 1, 0, none⟩).2, rfl,
            fillLoop_out_some _ _, ?_⟩
    have hlt0 : (⟨g0.date - 1, 0, none⟩ : Download).date
        < ((g0 :: rest).head hne).date := by
      simp only [List.head_cons]
      show g0.date - 1 < g0.date
      omega
    obtain ⟨_, _, hn⟩ := fillLoop_final (g0 :: rest) ⟨g0.date - 1, 0, none⟩
      hne hc hlt0
    exact hn

theorem c3_none_only_final_witness :
    ([⟨0, 3⟩, ⟨2, 9⟩] : List BetterGem) ≠ []
    ∧ List.Chain' (fun a b => a.date < b.date) ([⟨0, 3⟩, ⟨2, 9⟩] : List BetterGem)
    ∧ (∃ out last,
        (better_gems_to_downloads "g" [⟨0, 3⟩, ⟨2, 9⟩]).downloads = out ++ [last]
        ∧ (∀ d ∈ out, d.daily_downloads ≠ none)
        ∧ last.daily_downloads = none) :=
  ⟨by decide, List.chain'_pair.mpr (by decide),
   c3_none_only_final "g" [⟨0, 3⟩, ⟨2, 9⟩] (by decide) (List.chain'_pair.mpr (by decide))⟩

/-- C10: in every series from a non-empty strictly-increasing sample list,
every record but the last carries daily_downloads = some (t' - t) where t is
its own cumulative total and t' the next record's (the delta stored on a day
is the increase realized on the next day), and the final record's delta is
none. -/
theorem c10_forward_deltas (name : String) (gems : List BetterGem)
    (hne : gems ≠ []) (hc : List.Chain' (fun a b => a.date < b.date) gems) :
    List.Chain' deltaR (better_gems_to_downloads name gems).downloads
    ∧ ((better_gems_to_downloads name gems).downloads.getLast?).map
        (fun d => d.daily_downloads) = some none := by
  cases gems with
  | nil => exact absurd rfl hne
  | cons g0 rest =>
    rw [better_gems_to_downloads_cons]
    dsimp only
    constructor
    · exact fillLoop_chain (g0 :: rest) ⟨g0.date - 1, 0, none⟩ hc (init_head_lt g0 rest)
    · rw [List.getLast?_concat]
      have hlt0 : (⟨g0.date - 1, 0, none⟩ : Download).date
          < ((g0 :: rest).head hne).date := by
        simp only [List.head_cons]
        show g0.date - 1 < g0.date
        omega
      obtain ⟨_, _, hn⟩ := fillLoop_final (g0 :: rest) ⟨g0.date - 1, 0, none⟩
        hne hc hlt0
      simp only [Option.map_some']
      rw [hn]

theorem c10_forward_deltas_witness :
    ([⟨0, 3⟩, ⟨3, 9⟩] : List BetterGem) ≠ []
    ∧ List.Chain' (fun a b => a.date < b.date) ([⟨0, 3⟩, ⟨3, 9⟩] : List BetterGem)
    ∧ (List.Chain' deltaR (better_gems_to_downloads "g" [⟨0, 3⟩, ⟨3, 9⟩]).downloads
       ∧ ((better_gems_to_downloads "g" [⟨0, 3⟩, ⟨3, 9⟩]).downloads.getLast?).map
          (fun d => d.daily_downloads) = some none) :=
  ⟨by decide, List.chain'_pair.mpr (by decide),
   c10_forward_deltas "g" [⟨0, 3⟩, ⟨3, 9⟩] (by decide) (List.chain'_pair.mpr (by decide))⟩

/-- C4: for a non-empty strictly-increasing sample list, the series has
exactly one record per calendar day from first_sample_date - 1 through
last_sample_date inclusive, in strictly increasing order with no gaps
(its date list is the consecutive range starting at first_sample_date - 1). -/
theorem c4_density (name : String) (gems : List BetterGem) (hne : gems ≠ [])
    (hc : List.Chain' (fun a b => a.date < b.date) gems) :
    (better_gems_to_downloads name gems).downloads.map (fun d => d.date)
      = dateRange ((gems.head hne).date - 1)
          (((gems.getLast hne).date - (gems.head hne).date).toNat + 2) :=
  fill_map_date name gems hne hc

theorem c4_density_witness :
    ([⟨0, 3⟩, ⟨2, 9⟩] : List BetterGem) ≠ []
    ∧ List.Chain' (fun a b => a.date < b.date) ([⟨0, 3⟩, ⟨2, 9⟩] : List BetterGem)
    ∧ (better_gems_to_downloads "g" [⟨0, 3⟩, ⟨2, 9⟩]).downloads.map (fun d => d.date)
      = dateRange (0 - 1) ((2 - 0 : Int).toNat + 2) :=
  ⟨by decide, List.chain'_pair.mpr (by decide),
   c4_density "g" [⟨0, 3⟩, ⟨2, 9⟩] (by decide) (List.chain'_pair.mpr (by decide))⟩

/-- C5 counterexample: a single sample (0, 5) yields 2 records, while the
claimed count (last_sample_date - (first_sample_date - 1 day)).days is 1. -/
theorem c5_counterexample :
    (better_gems_to_downloads "g" [⟨0, 5⟩]).downloads.length = 2
    ∧ ((0 : Int) - ((0 : Int) - 1)).toNat = 1
    ∧ (2 : Nat) ≠ 1 := by decide

/-- C5 amended: the total number of records is
(last_sample_date - (first_sample_date - 1 day)).days **+ 1** (both the
synthetic baseline day and the last sample day are included, so the count is
one more than the day difference). -/
theorem c5_record_count (name : String) (gems : List BetterGem) (hne : gems ≠ [])
    (hc : List.Chain' (fun a b => a.date < b.date) gems) :
    (better_gems_to_downloads name gems).downloads.length
      = ((gems.getLast hne).date - ((gems.head hne).date - 1)).toNat + 1 := by
  have hmap := fill_map_date name gems hne hc
  have hlen : (better_gems_to_downloads name gems).downloads.length
      = ((better_gems_to_downloads name gems).downloads.map (fun d => d.date)).length := by
    rw [List.length_map]
  rw [hlen, hmap, dateRange_length]
  have := chain_head_le_getLast gems hne hc
  omega

theorem c5_record_count_witness :
    ([⟨0, 3⟩, ⟨2, 9⟩] : List BetterGem) ≠ []
    ∧ List.Chain' (fun a b => a.date < b.date) ([⟨0, 3⟩, ⟨2, 9⟩] : List BetterGem)
    ∧ (better_gems_to_downloads "g" [⟨0, 3⟩, ⟨2, 9⟩]).downloads.length
      = ((2 : Int) - ((0 : Int) - 1)).toNat + 1 :=
  ⟨by decide, List.chain'_pair.mpr (by decide),
   c5_record_count "g" [⟨0, 3⟩, ⟨2, 9⟩] (by decide) (List.chain'_pair.mpr (by decide))⟩

/-- C6: for a non-empty strictly-increasing sample list, the sum of all
some-valued daily deltas of the series equals the last raw sample's
cumulative total minus 0 (the baseline value). -/
theorem c6_delta_telescoping (name : String) (gems : List BetterGem)
    (hne : gems ≠ []) (hc : List.Chain' (fun a b => a.date < b.date) gems) :
    ((better_gems_to_downloads name gems).downloads.filterMap
       (fun d => d.daily_downloads)).sum
      = (gems.getLast hne).total_downloads - 0 := by
  cases gems with
  | nil => exact absurd rfl hne
  | cons g0 rest =>
    rw [better_gems_to_downloads_cons]
    dsimp only
    rw [List.filterMap_append]
    have hlt0 : (⟨g0.date - 1, 0, none⟩ : Download).date
        < ((g0 :: rest).head hne).date := by
      simp only [List.head_cons]
      show g0.date - 1 < g0.date
      omega
    obtain ⟨_, htot, hn⟩ := fillLoop_final (g0 :: rest) ⟨g0.date - 1, 0, none⟩
      hne hc hlt0
    rw [List.sum_append, fillLoop_sum]
    have hsing : List.filterMap (fun d => d.daily_downloads)
        [(fillLoop (g0 :: rest) ⟨g0.date - 1, 0, none⟩).2] = [] := by
      simp [List.filterMap_cons, hn]
    rw [hsing, htot]
    show ((g0 :: rest).getLast hne).total_downloads - 0 + List.sum []
      = ((g0 :: rest).getLast hne).total_downloads - 0
    simp

theorem c6_delta_telescoping_witness :
    ([⟨0, 3⟩, ⟨3, 9⟩] : List BetterGem) ≠ []
    ∧ List.Chain' (fun a b => a.date < b.date) ([⟨0, 3⟩, ⟨3, 9⟩] : List BetterGem)
    ∧ ((better_gems_to_downloads "g" [⟨0, 3⟩, ⟨3, 9⟩]).downloads.filterMap
        (fun d => d.daily_downloads)).sum = 9 - 0 :=
  ⟨by decide, List.chain'_pair.mpr (by decide),
   c6_delta_telescoping "g" [⟨0, 3⟩, ⟨3, 9⟩] (by decide) (List.chain'_pair.mpr (by decide))⟩

/-! ### Lemmas about `insertOn` and `sortOn` -/

lemma insertOn_perm {α : Type} (key : α → Int) (x : α) :
    ∀ l : List α, List.Perm (insertOn key x l) (x :: l) := by
  intro l
  induction l with
  | nil => exact List.Perm.refl _
  | cons y ys ih =>
    by_cases h : key x ≤ key y
    · simp only [insertOn, if_pos h]
      exact List.Perm.refl _
    · simp only [insertOn, if_neg h]
      exact (ih.cons y).trans (List.Perm.swap x y ys)

lemma sortOn_perm {α : Type} (key : α → Int) :
    ∀ l : List α, List.Perm (sortOn key l) l := by
  intro l
  induction l with
  | nil => exact List.Perm.refl _
  | cons x xs ih =>
    exact (insertOn_perm key x (sortOn key xs)).trans (ih.cons x)

lemma insertOn_sorted {α : Type} (key : α → Int) (x : α) :
    ∀ l : List α, List.Pairwise (fun a b => key a ≤ key b) l →
      List.Pairwise (fun a b => key a ≤ key b) (insertOn key x l) := by
  intro l
  induction l with
  | nil => intro _; simp [insertOn]
  | cons y ys ih =>
    intro hp
    obtain ⟨hy, hys⟩ := List.pairwise_cons.mp hp
    by_cases h : key x ≤ key y
    · simp only [insertOn, if_pos h]
      refine List.Pairwise.cons ?_ hp
      intro b hb
      rcases List.mem_cons.mp hb with rfl | hb
      · exact h
      · exact le_trans h (hy b hb)
    · simp only [insertOn, if_neg h]
      refine List.Pairwise.cons ?_ (ih hys)
      intro b hb
      have hb' := (insertOn_perm key x ys).mem_iff.mp hb
      rcases List.mem_cons.mp hb' with rfl | hb'
      · omega
      · exact hy b hb'

lemma sortOn_sorted {α : Type} (key : α → Int) :
    ∀ l : List α, List.Pairwise (fun a b => key a ≤ key b) (sortOn key l) := by
  intro l
  induction l with
  | nil => simp [sortOn]
  | cons x xs ih => exact insertOn_sorted key x (sortOn key xs) ih

lemma insertOn_all_le {α : Type} (key : α → Int) (x : α) :
    ∀ t : List α, (∀ z ∈ t, key x ≤ key z) → insertOn key x t = x :: t := by
  intro t h
  cases t with
  | nil => rfl
  | cons z t => simp only [insertOn, if_pos (h z (by simp))]

lemma filter_insertOn_pos {α : Type} (key : α → Int) (p : α → Bool) (x : α)
    (hx : p x = true) :
    ∀ l : List α, List.Pairwise (fun a b => key a ≤ key b) l →
      List.filter p (insertOn key x l) = insertOn key x (List.filter p l) := by
  intro l
  induction l with
  | nil =>
    intro _
    simp [insertOn, List.filter, hx]
  | cons y ys ih =>
    intro hp
    obtain ⟨hy, hys⟩ := List.pairwise_cons.mp hp
    by_cases h : key x ≤ key y
    · simp only [insertOn, if_pos h]
      cases hpy : p y with
      | true =>
        rw [List.filter_cons_of_pos hx, List.filter_cons_of_pos hpy]
        have hall : ∀ z ∈ y :: List.filter p ys, key x ≤ key z := by
          intro z hz
          rcases List.mem_cons.mp hz with rfl | hz
          · exact h
          · exact le_trans h (hy z (List.mem_of_mem_filter hz))
        rw [insertOn_all_le key x (y :: List.filter p ys) hall]
      | false =>
        rw [List.filter_cons_of_pos hx,
            List.filter_cons_of_neg (by simp [hpy])]
        have hall : ∀ z ∈ List.filter p ys, key x ≤ key z := by
          intro z hz
          exact le_trans h (hy z (List.mem_of_mem_filter hz))
        rw [insertOn_all_le key x (List.filter p ys) hall]
    · simp only [insertOn, if_neg h]
      cases hpy : p y with
      | true =>
        rw [List.filter_cons_of_pos hpy]
        rw [ih hys]
        rw [List.filter_cons_of_pos hpy]
        simp only [insertOn, if_neg h]
      | false =>
        rw [List.filter_cons_of_neg (by simp [hpy])]
        rw [ih hys]
        rw [List.filter_cons_of_neg (by simp [hpy])]

lemma filter_insertOn_neg {α : Type} (key : α → Int) (p : α → Bool) (x : α)
    (hx : p x = false) :
    ∀ l : List α, List.filter p (insertOn key x l) = List.filter p l := by
  intro l
  induction l with
  | nil => simp [insertOn, List.filter, hx]
  | cons y ys ih =>
    by_cases h : key x ≤ key y
    · simp only [insertOn, if_pos h]
      rw [List.filter_cons_of_neg (by simp [hx])]
    · simp only [insertOn, if_neg h]
      cases hpy : p y with
      | true =>
        rw [List.filter_cons_of_pos hpy]
        rw [ih]
        rw [List.filter_cons_of_pos hpy]
      | false =>
        rw [List.filter_cons_of_neg (by simp [hpy])]
        rw [ih]
        rw [List.filter_cons_of_neg (by simp [hpy])]

/-- A stable sort commutes with filtering: sorting the survivors of a filter
gives the same list as filtering the sorted list. -/
lemma sortOn_filter {α : Type} (key : α → Int) (p : α → Bool) :
    ∀ l : List α, sortOn key (List.filter p l) = List.filter p (sortOn key l) := by
  intro l
  induction l with
  | nil => rfl
  | cons x xs ih =>
    cases hpx : p x with
    | true =>
      rw [List.filter_cons_of_pos hpx]
      simp only [sortOn]
      rw [ih, filter_insertOn_pos key p x hpx _ (sortOn_sorted key xs)]
    | false =>
      rw [List.filter_cons_of_neg (by simp [hpx])]
      simp only [sortOn]
      rw [ih, filter_insertOn_neg key p x hpx]

/-! ### Counting helpers for the aggregation claim -/

lemma sum_map_add_nat {β : Type} (f g : β → Nat) :
    ∀ l : List β, (l.map (fun x => f x + g x)).sum = (l.map f).sum + (l.map g).sum := by
  intro l
  induction l with
  | nil => rfl
  | cons x xs ih =>
    simp only [List.map_cons, List.sum_cons, ih]
    omega

lemma sum_ite_one (a : Int) : ∀ ds : List Int, ds.Nodup → a ∈ ds →
    (ds.map (fun d => if a = d then (1:Nat) else 0)).sum = 1 := by
  intro ds
  induction ds with
  | nil => intro _ h; simp at h
  | cons d ds ih =>
    intro hnd hmem
    obtain ⟨hd, hnd'⟩ := List.nodup_cons.mp hnd
    by_cases h : a = d
    · subst h
      simp only [List.map_cons, List.sum_cons, if_pos rfl]
      have hzero : (ds.map (fun x => if a = x then (1:Nat) else 0)).sum = 0 := by
        apply List.sum_eq_zero
        intro x hx
        obtain ⟨d', hd', rfl⟩ := List.mem_map.mp hx
        rw [if_neg]
        intro hcon
        subst hcon
        exact hd hd'
      rw [hzero]
      simp
    · have hmem' : a ∈ ds := by
        rcases List.mem_cons.mp hmem with rfl | h'
        · exact absurd rfl h
        · exact h'
      simp only [List.map_cons, List.sum_cons, if_neg h]
      rw [ih hnd' hmem']

/-- Partitioning a list by the (complete, duplicate-free) list of its key
values: the filtered sublists' lengths add up to the whole list's length. -/
lemma sum_filter_count {β : Type} (dOf : β → Int) :
    ∀ (recs : List β) (ds : List Int), ds.Nodup → (∀ r ∈ recs, dOf r ∈ ds) →
      (ds.map (fun d => (recs.filter (fun r => dOf r == d)).length)).sum
        = recs.length := by
  intro recs
  induction recs with
  | nil =>
    intro ds _ _
    simp [List.filter]
  | cons r rs ih =>
    intro ds hnd hcov
    have hsplit : ∀ d : Int, ((r :: rs).filter (fun x => dOf x == d)).length
        = (if dOf r = d then 1 else 0) + (rs.filter (fun x => dOf x == d)).length := by
      intro d
      by_cases h : dOf r = d
      · rw [List.filter_cons_of_pos (by simpa using h), if_pos h]
        simp only [List.length_cons]
        omega
      · rw [List.filter_cons_of_neg (by simpa using h), if_neg h]
        omega
    calc (ds.map (fun d => ((r :: rs).filter (fun x => dOf x == d)).length)).sum
        = (ds.map (fun d => (if dOf r = d then (1:Nat) else 0)
            + (rs.filter (fun x => dOf x == d)).length)).sum := by
          exact congrArg List.sum (List.map_congr_left (fun d _ => hsplit d))
      _ = (ds.map (fun d => if dOf r = d then (1:Nat) else 0)).sum
            + (ds.map (fun d => (rs.filter (fun x => dOf x == d)).length)).sum :=
          sum_map_add_nat _ _ ds
      _ = 1 + rs.length := by
          rw [sum_ite_one (dOf r) ds hnd (hcov r (by simp)),
              ih ds hnd (fun x hx => hcov x (by simp [hx]))]
      _ = (r :: rs).length := by
          simp only [List.length_cons]
          omega

/-! ### Claim theorems: Aggregator and RangeRanker -/

/-- C7: group_downloads returns date groups sorted strictly ascending by date
(at most one group per distinct date), and the total number of per-gem
entries across all groups equals the sum of the record counts of all input
series: every record of every series appears exactly once, none dropped or
deduplicated. -/
theorem c7_aggregation_completeness (dls : List Downloads) :
    List.Pairwise (fun a b => a.1 < b.1) (group_downloads dls)
    ∧ ((group_downloads dls).map (fun gp => gp.2.length)).sum
        = (dls.map (fun dl => dl.downloads.length)).sum := by
  constructor
  · show List.Pairwise (fun a b => a.1 < b.1)
      ((sortOn (fun d => d) (((allRecords dls).map (fun r => r.2.date)).dedup)).map
        (fun d => (d, ((allRecords dls).filter (fun r => r.2.date == d)).map
          (fun r => ({ name := r.1, total_downloads := r.2.total_downloads,
                       daily_downloads := r.2.daily_downloads } : GemDownload)))))
    rw [List.pairwise_map]
    have hs := sortOn_sorted (fun d => d) (((allRecords dls).map (fun r => r.2.date)).dedup)
    have hnd : (sortOn (fun d => d)
        (((allRecords dls).map (fun r => r.2.date)).dedup)).Nodup :=
      ((sortOn_perm (fun d => d) _).nodup_iff).mpr (List.nodup_dedup _)
    refine (List.Pairwise.and hs hnd).imp ?_
    intro a b hab
    exact lt_of_le_of_ne hab.1 hab.2
  · show ((List.map (fun gp => gp.2.length)
      ((sortOn (fun d => d) (((allRecords dls).map (fun r => r.2.date)).dedup)).map
        (fun d => (d, ((allRecords dls).filter (fun r => r.2.date == d)).map
          (fun r => ({ name := r.1, total_downloads := r.2.total_downloads,
                       daily_downloads := r.2.daily_downloads } : GemDownload)))))).sum
      = (dls.map (fun dl => dl.downloads.length)).sum)
    rw [List.map_map]
    have h1 : ((fun gp => gp.2.length) ∘ (fun d : Int =>
        (d, ((allRecords dls).filter (fun r => r.2.date == d)).map
          (fun r => ({ name := r.1, total_downloads := r.2.total_downloads,
                       daily_downloads := r.2.daily_downloads } : GemDownload)))))
        = fun d => ((allRecords dls).filter (fun r => r.2.date == d)).length := by
      funext d
      simp [List.length_map]
    rw [h1]
    have hperm := (sortOn_perm (fun d => d)
        (((allRecords dls).map (fun r => r.2.date)).dedup)).map
      (fun d => ((allRecords dls).filter (fun r => r.2.date == d)).length)
    rw [hperm.sum_eq]
    rw [sum_filter_count (fun r : String × Download => r.2.date) (allRecords dls)
      (((allRecords dls).map (fun r => r.2.date)).dedup)
      (List.nodup_dedup _)
      (fun r hr => List.mem_dedup.mpr (List.mem_map.mpr ⟨r, hr, rfl⟩))]
    unfold allRecords
    rw [List.length_flatMap]
    congr 1
    apply List.map_congr_left
    intro dl _
    simp [List.length_map]

/-- C8: with a positive count, every growth record returned by top names an
entity present in the end snapshot (entities only in the start snapshot never
appear), carries the start-snapshot value (or 0 when absent) as start, the
end-snapshot value as end, and diff = end - start; the result is sorted
descending by diff and has length at most count. -/
theorem c8_top_ranking (count : Nat) (hcount : 0 < count) (only_new : Bool)
    (start_downloads end_downloads : List (String × Int)) :
    (∀ gd ∈ top count only_new start_downloads end_downloads,
       ∃ p ∈ end_downloads, gd.name = p.1 ∧ gd.end_ = p.2
         ∧ gd.start = ((start_downloads.lookup p.1).getD 0)
         ∧ gd.diff = p.2 - (start_downloads.lookup p.1).getD 0)
    ∧ List.Pairwise (fun a b => b.diff ≤ a.diff)
        (top count only_new start_downloads end_downloads)
    ∧ (top count only_new start_downloads end_downloads).length ≤ count := by
  refine ⟨?_, ?_, ?_⟩
  · intro gd hgd
    unfold top at hgd
    have h1 := List.mem_of_mem_take hgd
    have h2 := List.mem_of_mem_filter h1
    have h3 : gd ∈ mkDiffs start_downloads end_downloads :=
      (sortOn_perm (fun x => -x.diff) _).mem_iff.mp h2
    obtain ⟨p, hp, rfl⟩ := List.mem_map.mp h3
    exact ⟨p, hp, rfl, rfl, rfl, rfl⟩
  · have hs := sortOn_sorted (fun x => -x.diff) (mkDiffs start_downloads end_downloads)
    have hf : List.Pairwise (fun a b => -a.diff ≤ -b.diff)
        ((sortOn (fun gd => -gd.diff) (mkDiffs start_downloads end_downloads)).filter
          (fun gd => !only_new || gd.start == 0)) :=
      List.Pairwise.sublist (List.filter_sublist _) hs
    have ht := List.Pairwise.sublist (List.take_sublist count _) hf
    show List.Pairwise (fun a b => b.diff ≤ a.diff)
      (((sortOn (fun gd => -gd.diff) (mkDiffs start_downloads end_downloads)).filter
        (fun gd => !only_new || gd.start == 0)).take count)
    refine ht.imp ?_
    intro a b hab
    omega
  · exact List.length_take_le _ _

theorem c8_top_ranking_witness :
    0 < 2
    ∧ ((∀ gd ∈ top 2 false [("a", 100), ("b", 50)] [("a", 150), ("b", 40), ("c", 10)],
       ∃ p ∈ ([("a", 150), ("b", 40), ("c", 10)] : List (String × Int)),
         gd.name = p.1 ∧ gd.end_ = p.2
         ∧ gd.start = ((([("a", 100), ("b", 50)] : List (String × Int)).lookup p.1).getD 0)
         ∧ gd.diff = p.2 - (([("a", 100), ("b", 50)] : List (String × Int)).lookup p.1).getD 0)
    ∧ List.Pairwise (fun a b => b.diff ≤ a.diff)
        (top 2 false [("a", 100), ("b", 50)] [("a", 150), ("b", 40), ("c", 10)])
    ∧ (top 2 false [("a", 100), ("b", 50)] [("a", 150), ("b", 40), ("c", 10)]).length ≤ 2) :=
  ⟨by decide,
   c8_top_ranking 2 (by decide) false [("a", 100), ("b", 50)]
     [("a", 150), ("b", 40), ("c", 10)]⟩

/-- C9: when only_new is set, the candidates are restricted to those with
start_total = 0 before the result is truncated to count: the result equals
the first count entries of the zero-start candidates ordered by descending
diff (the stable sort commutes with the filter, so filtering after sorting
but before taking is the same as sorting only the zero-start candidates). -/
theorem c9_only_new_before_truncation (count : Nat)
    (start_downloads end_downloads : List (String × Int)) :
    top count true start_downloads end_downloads
      = (sortOn (fun gd => -gd.diff)
          ((mkDiffs start_downloads end_downloads).filter
            (fun gd => gd.start == 0))).take count := by
  unfold top
  rw [sortOn_filter]
  simp only [Bool.not_true, Bool.false_or]

end Gems
